import Mathlib

/-
Verification of the BW Fill Repeater block (src/module.py).

The block is a GNU Radio sync block holding a configuration
(input_bw, output_bw, samp_rate), a derived replication plan
(num_copies, shift_spacing) and a running sample cursor (sample_idx).
Its `work` method mixes the input block with `num_copies` complex
exponentials at evenly spaced frequency offsets and sums the results.

Python floats are modelled as rationals, complex samples as ℂ, and
numpy arrays as lists. The mixer exponentials live in ℂ via coercion.
-/

open Complex

namespace WBFMFill

/-- State of the `BWFillRepeater` block: the three configuration fields,
the derived replication plan, and the running sample cursor, mirroring the
attributes set in `BWFillRepeater.__init__` in src/module.py. -/
structure BWFillRepeater where
  input_bw : ℚ
  output_bw : ℚ
  samp_rate : ℚ
  num_copies : ℤ
  shift_spacing : ℚ
  sample_idx : ℕ
  deriving DecidableEq

/-- Content of the line printed by `set_input_bandwidth` on an accepted
update: the new bandwidth, the new copy count and the new spacing. -/
structure BWNotification where
  input_bw : ℚ
  num_copies : ℤ
  shift_spacing : ℚ
  deriving DecidableEq

/-- Constructor `BWFillRepeater.__init__`: stores the configuration, derives
`num_copies = max(1, int(output_bw // input_bw))` (Python float floor
division, modelled as the rational floor) and
`shift_spacing = output_bw / num_copies`, and starts the cursor at 0. -/
def BWFillRepeater.init (input_bw output_bw samp_rate : ℚ) : BWFillRepeater :=
  { input_bw := input_bw
    output_bw := output_bw
    samp_rate := samp_rate
    num_copies := max 1 ⌊output_bw / input_bw⌋
    shift_spacing := output_bw / ((max 1 ⌊output_bw / input_bw⌋ : ℤ) : ℚ)
    sample_idx := 0 }

/-- Method `set_input_bandwidth`: when the new bandwidth is positive it is
stored, the plan is re-derived and a notification is printed; otherwise the
call does nothing. Returns the new state and the optional notification. -/
def BWFillRepeater.set_input_bandwidth (st : BWFillRepeater) (input_bw : ℚ) :
    BWFillRepeater × Option BWNotification :=
  if input_bw > 0 then
    ({ st with
        input_bw := input_bw
        num_copies := max 1 ⌊st.output_bw / input_bw⌋
        shift_spacing := st.output_bw / ((max 1 ⌊st.output_bw / input_bw⌋ : ℤ) : ℚ) },
     some { input_bw := input_bw
            num_copies := max 1 ⌊st.output_bw / input_bw⌋
            shift_spacing := st.output_bw / ((max 1 ⌊st.output_bw / input_bw⌋ : ℤ) : ℚ) })
  else (st, none)

/-- The replication plan stored in a state agrees with the derivation
formulas of `__init__` and `set_input_bandwidth` applied to the stored
configuration. -/
def PlanDerived (st : BWFillRepeater) : Prop :=
  st.num_copies = max 1 ⌊st.output_bw / st.input_bw⌋ ∧
  st.shift_spacing = st.output_bw / (st.num_copies : ℚ)

instance (st : BWFillRepeater) : Decidable (PlanDerived st) := by
  unfold PlanDerived; infer_instance

/-- Time vector of one `work` call: `np.arange(sample_idx, sample_idx + n)
/ samp_rate`, elementwise. -/
def tVec (st : BWFillRepeater) (num_samples : ℕ) : List ℚ :=
  (List.range num_samples).map (fun (k : ℕ) => ((st.sample_idx : ℚ) + (k : ℚ)) / st.samp_rate)

/-- Frequency offset of copy `i`: `-output_bw / 1 + i * shift_spacing`,
exactly as written in `work`. -/
def freq_shift (st : BWFillRepeater) (i : ℕ) : ℚ :=
  -st.output_bw / 1 + (i : ℚ) * st.shift_spacing

/-- Mixer array of copy `i`: `np.exp(2j * np.pi * freq_shift * t)`,
elementwise over the time vector. -/
noncomputable def mixer (st : BWFillRepeater) (i : ℕ) (num_samples : ℕ) : List ℂ :=
  (tVec st num_samples).map
    (fun t => Complex.exp (2 * Complex.I * (Real.pi : ℂ) * ((freq_shift st i : ℚ) : ℂ) * ((t : ℚ) : ℂ)))

/-- One iteration of the copy loop in `work`: `out += in0 * mixer`. -/
noncomputable def addCopy (st : BWFillRepeater) (in0 : List ℂ) (out : List ℂ) (i : ℕ) : List ℂ :=
  List.zipWith (· + ·) out (List.zipWith (· * ·) in0 (mixer st i in0.length))

/-- Method `work`: zero the output buffer, accumulate `in0 * mixer` for each
copy index, advance the cursor by the block length, and return the length of
the output as the produced-sample count. Returns (new state, output block,
returned count). -/
noncomputable def BWFillRepeater.work (st : BWFillRepeater) (in0 : List ℂ) :
    BWFillRepeater × List ℂ × ℕ :=
  let num_samples := in0.length
  let out := (List.range st.num_copies.toNat).foldl
      (addCopy st in0) (List.replicate num_samples 0)
  ({ st with sample_idx := st.sample_idx + num_samples }, out, out.length)

/-- Folding `work` over a list of successive input blocks, keeping only the
final state. -/
noncomputable def processBlocks (st : BWFillRepeater) (blocks : List (List ℂ)) :
    BWFillRepeater :=
  blocks.foldl (fun s b => (s.work b).1) st

/-- The mixer array has one entry per sample. -/
theorem length_mixer (st : BWFillRepeater) (i n : ℕ) : (mixer st i n).length = n := by
  rw [mixer, List.length_map, tVec, List.length_map, List.length_range]

/-- One loop iteration keeps the buffer length equal to the input length. -/
theorem length_addCopy (st : BWFillRepeater) (in0 out : List ℂ) (i : ℕ)
    (h : out.length = in0.length) : (addCopy st in0 out i).length = in0.length := by
  simp [addCopy, List.length_zipWith, length_mixer, h]

/-- The whole copy loop keeps the buffer length equal to the input length. -/
theorem length_loop (st : BWFillRepeater) (in0 : List ℂ) (l : List ℕ) :
    ∀ out : List ℂ, out.length = in0.length →
      (l.foldl (addCopy st in0) out).length = in0.length := by
  induction l with
  | nil => intro out h; simpa using h
  | cons i l ih =>
      intro out h
      simp only [List.foldl_cons]
      exact ih _ (length_addCopy _ _ _ _ h)

/-- The output block of `work` has the length of the input block. -/
theorem work_output_length (st : BWFillRepeater) (in0 : List ℂ) :
    (st.work in0).2.1.length = in0.length := by
  simp only [BWFillRepeater.work]
  exact length_loop st in0 _ _ (by simp)

/-- Entry `k` of the mixer array of copy `i`. -/
theorem mixer_getD (st : BWFillRepeater) (i n k : ℕ) (hk : k < n) :
    (mixer st i n).getD k 0
      = Complex.exp (2 * Complex.I * (Real.pi : ℂ) * ((freq_shift st i : ℚ) : ℂ)
          * (((((st.sample_idx : ℚ) + (k : ℚ)) / st.samp_rate : ℚ)) : ℂ)) := by
  rw [List.getD_eq_getElem _ _ (show k < (mixer st i n).length by
    rw [length_mixer]; exact hk)]
  simp only [mixer, tVec, List.getElem_map, List.getElem_range]

/-- Entry `k` of one loop iteration: the prior value plus the input sample
times the mixer entry. -/
theorem addCopy_getD (st : BWFillRepeater) (in0 out : List ℂ) (i k : ℕ)
    (hlen : out.length = in0.length) (hk : k < in0.length) :
    (addCopy st in0 out i).getD k 0
      = out.getD k 0 + in0.getD k 0 * (mixer st i in0.length).getD k 0 := by
  have h1 : k < (addCopy st in0 out i).length := by
    rw [length_addCopy st in0 out i hlen]; exact hk
  rw [List.getD_eq_getElem _ _ h1,
      List.getD_eq_getElem _ _ (show k < out.length by rw [hlen]; exact hk),
      List.getD_eq_getElem _ _ hk,
      List.getD_eq_getElem _ _ (show k < (mixer st i in0.length).length by
        rw [length_mixer]; exact hk)]
  simp [addCopy, List.getElem_zipWith]

/-- Entry `k` of the copy loop over the first `m` copies: the initial value
plus the sum of the mixed contributions. -/
theorem loop_getD (st : BWFillRepeater) (in0 : List ℂ) (k : ℕ) (hk : k < in0.length) :
    ∀ (m : ℕ) (out : List ℂ), out.length = in0.length →
      ((List.range m).foldl (addCopy st in0) out).getD k 0
        = out.getD k 0
          + ∑ i ∈ Finset.range m, in0.getD k 0 * (mixer st i in0.length).getD k 0 := by
  intro m
  induction m with
  | zero => intro out h; simp
  | succ m ih =>
      intro out h
      rw [List.range_succ, List.foldl_append]
      simp only [List.foldl_cons, List.foldl_nil]
      rw [addCopy_getD st in0 _ m k (length_loop st in0 _ _ h) hk, ih out h,
          Finset.sum_range_succ]
      ring

/-- Entry `k` of the output of `work`: the sum over all copies of the input
sample times the mixer entry. -/
theorem work_getD (st : BWFillRepeater) (in0 : List ℂ) (k : ℕ) (hk : k < in0.length) :
    (st.work in0).2.1.getD k 0
      = ∑ i ∈ Finset.range st.num_copies.toNat,
          in0.getD k 0 * (mixer st i in0.length).getD k 0 := by
  simp only [BWFillRepeater.work]
  rw [loop_getD st in0 k hk _ _ (by simp)]
  rw [List.getD_eq_getElem _ _ (show k < (List.replicate in0.length (0 : ℂ)).length by
    simpa using hk)]
  simp

/-- Claim C2: for every `input_bw > 0` and `output_bw > 0` the derived copy
count is `max 1 ⌊output_bw / input_bw⌋`, both at construction and after every
accepted `set_input_bandwidth` update; in particular `input_bw = 12e3`,
`output_bw = 20e6` yield `num_copies = 1666`. -/
theorem claim_C2 (a b sr : ℚ) (ha : 0 < a) (hb : 0 < b)
    (st : BWFillRepeater) (c : ℚ) (hc : 0 < c) :
    (BWFillRepeater.init a b sr).num_copies = max 1 ⌊b / a⌋ ∧
    (st.set_input_bandwidth c).1.num_copies = max 1 ⌊st.output_bw / c⌋ ∧
    (BWFillRepeater.init 12000 20000000 1).num_copies = 1666 := by
  refine ⟨rfl, ?_, ?_⟩
  · simp [BWFillRepeater.set_input_bandwidth, hc]
  · have h : (⌊(20000000 : ℚ) / 12000⌋ : ℤ) = 1666 := Int.floor_eq_iff.mpr (by norm_num)
    simp only [BWFillRepeater.init]
    rw [h]
    decide

/-- Witness for C2 at `input_bw = 12000`, `output_bw = 20000000`,
`samp_rate = 1`, updating a concrete state with `new_bw = 1`. -/
theorem claim_C2_witness :
    (BWFillRepeater.init 12000 20000000 1).num_copies = max 1 ⌊(20000000 : ℚ) / 12000⌋ ∧
    ((BWFillRepeater.init 1 1 1).set_input_bandwidth 1).1.num_copies
      = max 1 ⌊(BWFillRepeater.init 1 1 1).output_bw / 1⌋ ∧
    (BWFillRepeater.init 12000 20000000 1).num_copies = 1666 :=
  claim_C2 12000 20000000 1 (by norm_num) (by norm_num)
    (BWFillRepeater.init 1 1 1) 1 (by norm_num)

/-- Claim C5: for every `new_bw ≤ 0`, `set_input_bandwidth new_bw` is a
no-op: the state is unchanged and no notification is emitted. -/
theorem claim_C5 (st : BWFillRepeater) (b : ℚ) (hb : b ≤ 0) :
    st.set_input_bandwidth b = (st, none) := by
  simp only [BWFillRepeater.set_input_bandwidth, if_neg (not_lt.mpr hb)]

/-- Witness for C5 at `new_bw = 0` on a concrete state. -/
theorem claim_C5_witness :
    (BWFillRepeater.init 1 1 1).set_input_bandwidth 0 = (BWFillRepeater.init 1 1 1, none) :=
  claim_C5 (BWFillRepeater.init 1 1 1) 0 (by norm_num)

/-- Claim C6: whenever the replication plan is derived (at construction and
after every accepted bandwidth update), `shift_spacing` equals `output_bw`
divided by the derived `num_copies` exactly. -/
theorem claim_C6 (a b sr : ℚ) (st : BWFillRepeater) (c : ℚ) (hc : 0 < c) :
    (BWFillRepeater.init a b sr).shift_spacing
      = (BWFillRepeater.init a b sr).output_bw
          / (((BWFillRepeater.init a b sr).num_copies : ℚ)) ∧
    (st.set_input_bandwidth c).1.shift_spacing
      = (st.set_input_bandwidth c).1.output_bw
          / (((st.set_input_bandwidth c).1.num_copies : ℚ)) := by
  constructor
  · rfl
  · simp [BWFillRepeater.set_input_bandwidth, hc]

/-- Witness for C6 at a concrete construction and a concrete accepted
update. -/
theorem claim_C6_witness :
    (BWFillRepeater.init 1 2 1).shift_spacing
      = (BWFillRepeater.init 1 2 1).output_bw
          / (((BWFillRepeater.init 1 2 1).num_copies : ℚ)) ∧
    ((BWFillRepeater.init 1 1 1).set_input_bandwidth 3).1.shift_spacing
      = ((BWFillRepeater.init 1 1 1).set_input_bandwidth 3).1.output_bw
          / ((((BWFillRepeater.init 1 1 1).set_input_bandwidth 3).1.num_copies : ℚ)) :=
  claim_C6 1 2 1 (BWFillRepeater.init 1 1 1) 3 (by norm_num)

/-- Claim C9: `num_copies` is an integer that is at least 1 after
construction, and this bound is preserved by `set_input_bandwidth` and by
`work`. -/
theorem claim_C9 (a b sr : ℚ) (st : BWFillRepeater) (c : ℚ) (x : List ℂ)
    (h1 : 1 ≤ st.num_copies) :
    1 ≤ (BWFillRepeater.init a b sr).num_copies ∧
    1 ≤ (st.set_input_bandwidth c).1.num_copies ∧
    1 ≤ (st.work x).1.num_copies := by
  refine ⟨?_, ?_, ?_⟩
  · simp only [BWFillRepeater.init]
    exact le_max_left _ _
  · by_cases hc : c > 0
    · simp only [BWFillRepeater.set_input_bandwidth, if_pos hc]
      exact le_max_left _ _
    · simpa only [BWFillRepeater.set_input_bandwidth, if_neg hc] using h1
  · simpa only [BWFillRepeater.work] using h1

/-- Witness for C9 on a concrete state with `num_copies = 1`. -/
theorem claim_C9_witness :
    1 ≤ (BWFillRepeater.init 1 2 1).num_copies ∧
    1 ≤ ((BWFillRepeater.init 1 1 1).set_input_bandwidth 5).1.num_copies ∧
    1 ≤ ((BWFillRepeater.init 1 1 1).work []).1.num_copies :=
  claim_C9 1 2 1 (BWFillRepeater.init 1 1 1) 5 []
    (by simp [BWFillRepeater.init])

/-- Claim C10: `set_input_bandwidth` never changes `output_bw`, `samp_rate`
or the sample cursor; the only fields an accepted update touches are
`input_bw`, `num_copies` and `shift_spacing`. -/
theorem claim_C10 (st : BWFillRepeater) (b : ℚ) :
    (st.set_input_bandwidth b).1.output_bw = st.output_bw ∧
    (st.set_input_bandwidth b).1.samp_rate = st.samp_rate ∧
    (st.set_input_bandwidth b).1.sample_idx = st.sample_idx := by
  by_cases hb : b > 0 <;> simp [BWFillRepeater.set_input_bandwidth, hb]

/-- Claim C4: `work` returns an output block whose length equals the input
length, and the returned sample count equals the input length. -/
theorem claim_C4 (st : BWFillRepeater) (x : List ℂ) :
    (st.work x).2.1.length = x.length ∧ (st.work x).2.2 = x.length := by
  refine ⟨work_output_length st x, ?_⟩
  have h := work_output_length st x
  simp only [BWFillRepeater.work] at h ⊢
  exact h

/-- Claim C1: for every configuration with positive sample rate, every
cursor value and every input block, the output block has the input length
and its `k`-th sample is the unnormalized sum over all copies of the input
sample mixed by `exp(j 2π freq_shift_i (cursor + k) / samp_rate)` with
`freq_shift_i = -output_bw + i * shift_spacing`. -/
theorem claim_C1 (st : BWFillRepeater) (x : List ℂ) (k : ℕ)
    (hk : k < x.length) (hs : 0 < st.samp_rate) :
    (st.work x).2.1.length = x.length ∧
    (st.work x).2.1.getD k 0
      = ∑ i ∈ Finset.range st.num_copies.toNat,
          x.getD k 0
            * Complex.exp (Complex.I * (2 * (Real.pi : ℂ))
                * (-(st.output_bw : ℂ) + (i : ℂ) * (st.shift_spacing : ℂ))
                * ((st.sample_idx : ℂ) + (k : ℂ)) / (st.samp_rate : ℂ)) := by
  refine ⟨work_output_length st x, ?_⟩
  rw [work_getD st x k hk]
  refine Finset.sum_congr rfl (fun i hi => ?_)
  rw [mixer_getD st i x.length k hk]
  congr 1
  congr 1
  simp only [freq_shift]
  push_cast
  ring

/-- Witness for C1 on a one-sample block with a concrete configuration. -/
theorem claim_C1_witness :
    ((BWFillRepeater.init 1 2 1).work [1]).2.1.length = ([1] : List ℂ).length ∧
    ((BWFillRepeater.init 1 2 1).work [1]).2.1.getD 0 0
      = ∑ i ∈ Finset.range (BWFillRepeater.init 1 2 1).num_copies.toNat,
          ([1] : List ℂ).getD 0 0
            * Complex.exp (Complex.I * (2 * (Real.pi : ℂ))
                * (-((BWFillRepeater.init 1 2 1).output_bw : ℂ)
                    + (i : ℂ) * ((BWFillRepeater.init 1 2 1).shift_spacing : ℂ))
                * (((BWFillRepeater.init 1 2 1).sample_idx : ℂ) + ((0 : ℕ) : ℂ))
                / ((BWFillRepeater.init 1 2 1).samp_rate : ℂ)) :=
  claim_C1 (BWFillRepeater.init 1 2 1) [1] 0 (by simp)
    (by norm_num [BWFillRepeater.init])

/-- The cursor after a run of `work` calls is the initial cursor plus the
total number of samples processed. -/
theorem processBlocks_sample_idx (blocks : List (List ℂ)) :
    ∀ st : BWFillRepeater, (processBlocks st blocks).sample_idx
      = st.sample_idx + (blocks.map List.length).sum := by
  induction blocks with
  | nil => intro st; simp [processBlocks]
  | cons bhd btl ih =>
      intro st
      simp only [processBlocks, List.foldl_cons, List.map_cons, List.sum_cons] at *
      rw [ih ((st.work bhd).1)]
      simp only [BWFillRepeater.work]
      omega

/-- Entry `k` of the time vector built from a state. -/
theorem tVec_getD (st : BWFillRepeater) (m k : ℕ) (hk : k < m) :
    (tVec st m).getD k 0 = ((st.sample_idx : ℚ) + (k : ℚ)) / st.samp_rate := by
  rw [List.getD_eq_getElem _ _ (show k < (tVec st m).length by
    rw [tVec, List.length_map, List.length_range]; exact hk)]
  simp only [tVec, List.getElem_map, List.getElem_range]

/-- Claim C3: the cursor starts at 0 at construction; after successive
`work` calls it equals the total of the block lengths; each call reads the
cursor before advancing it, so the next call's time vector continues exactly
where the previous one ended. -/
theorem claim_C3 (a b sr : ℚ) (blocks : List (List ℂ)) (st : BWFillRepeater)
    (x : List ℂ) (m k : ℕ) (hk : k < m) :
    (BWFillRepeater.init a b sr).sample_idx = 0 ∧
    (processBlocks (BWFillRepeater.init a b sr) blocks).sample_idx
      = (blocks.map List.length).sum ∧
    (st.work x).1.sample_idx = st.sample_idx + x.length ∧
    (tVec (st.work x).1 m).getD k 0
      = (((st.sample_idx : ℚ) + (x.length : ℚ)) + (k : ℚ)) / st.samp_rate := by
  refine ⟨rfl, ?_, ?_, ?_⟩
  · rw [processBlocks_sample_idx]
    simp [BWFillRepeater.init]
  · simp only [BWFillRepeater.work]
  · rw [tVec_getD _ m k hk]
    simp only [BWFillRepeater.work]
    push_cast
    ring

/-- Witness for C3 on two successive concrete blocks. -/
theorem claim_C3_witness :
    (BWFillRepeater.init 1 1 1).sample_idx = 0 ∧
    (processBlocks (BWFillRepeater.init 1 1 1) [[1], [0, 1]]).sample_idx
      = (([[1], [0, 1]] : List (List ℂ)).map List.length).sum ∧
    ((BWFillRepeater.init 1 1 1).work [1]).1.sample_idx
      = (BWFillRepeater.init 1 1 1).sample_idx + ([1] : List ℂ).length ∧
    (tVec ((BWFillRepeater.init 1 1 1).work [1]).1 2).getD 1 0
      = ((((BWFillRepeater.init 1 1 1).sample_idx : ℚ) + (([1] : List ℂ).length : ℚ))
          + ((1 : ℕ) : ℚ)) / (BWFillRepeater.init 1 1 1).samp_rate :=
  claim_C3 1 1 1 [[1], [0, 1]] (BWFillRepeater.init 1 1 1) [1] 2 1 (by norm_num)

/-- Claim C7: with a derived plan and a single copy, the spacing equals the
full output bandwidth, the sole frequency offset is `-output_bw`, the output
is the input times the single pure complex exponential of that offset, and
output magnitudes equal input magnitudes. -/
theorem claim_C7 (st : BWFillRepeater) (x : List ℂ) (k : ℕ)
    (hd : PlanDerived st) (h1 : st.num_copies = 1) (hk : k < x.length) :
    st.shift_spacing = st.output_bw ∧
    freq_shift st 0 = -st.output_bw ∧
    (st.work x).2.1.getD k 0
      = x.getD k 0 * Complex.exp (2 * Complex.I * (Real.pi : ℂ)
          * ((freq_shift st 0 : ℚ) : ℂ)
          * (((((st.sample_idx : ℚ) + (k : ℚ)) / st.samp_rate : ℚ)) : ℂ)) ∧
    Complex.abs ((st.work x).2.1.getD k 0) = Complex.abs (x.getD k 0) := by
  have hsp : st.shift_spacing = st.output_bw := by
    rw [hd.2, h1]
    norm_num
  have hfs : freq_shift st 0 = -st.output_bw := by
    simp [freq_shift]
  have hout : (st.work x).2.1.getD k 0
      = x.getD k 0 * Complex.exp (2 * Complex.I * (Real.pi : ℂ)
          * ((freq_shift st 0 : ℚ) : ℂ)
          * (((((st.sample_idx : ℚ) + (k : ℚ)) / st.samp_rate : ℚ)) : ℂ)) := by
    rw [work_getD st x k hk, h1]
    simp only [Int.toNat_one, Finset.sum_range_one]
    rw [mixer_getD st 0 x.length k hk]
  refine ⟨hsp, hfs, hout, ?_⟩
  rw [hout, map_mul]
  have hz : (2 * Complex.I * (Real.pi : ℂ) * ((freq_shift st 0 : ℚ) : ℂ)
        * (((((st.sample_idx : ℚ) + (k : ℚ)) / st.samp_rate : ℚ)) : ℂ))
      = ((2 * Real.pi * ((freq_shift st 0 : ℚ) : ℝ)
          * (((((st.sample_idx : ℚ) + (k : ℚ)) / st.samp_rate : ℚ)) : ℝ) : ℝ) : ℂ)
          * Complex.I := by
    push_cast
    ring
  rw [hz, Complex.abs_exp_ofReal_mul_I, mul_one]

/-- Witness for C7 on the one-copy configuration `init 1 1 1`. -/
theorem claim_C7_witness :
    (BWFillRepeater.init 1 1 1).shift_spacing = (BWFillRepeater.init 1 1 1).output_bw ∧
    freq_shift (BWFillRepeater.init 1 1 1) 0 = -(BWFillRepeater.init 1 1 1).output_bw ∧
    ((BWFillRepeater.init 1 1 1).work [1]).2.1.getD 0 0
      = ([1] : List ℂ).getD 0 0 * Complex.exp (2 * Complex.I * (Real.pi : ℂ)
          * ((freq_shift (BWFillRepeater.init 1 1 1) 0 : ℚ) : ℂ)
          * ((((((BWFillRepeater.init 1 1 1).sample_idx : ℚ) + ((0 : ℕ) : ℚ))
              / (BWFillRepeater.init 1 1 1).samp_rate : ℚ)) : ℂ)) ∧
    Complex.abs (((BWFillRepeater.init 1 1 1).work [1]).2.1.getD 0 0)
      = Complex.abs (([1] : List ℂ).getD 0 0) :=
  claim_C7 (BWFillRepeater.init 1 1 1) [1] 0 ⟨rfl, rfl⟩
    (by norm_num [BWFillRepeater.init]) (by simp)

/-- Claim C8: for a fixed configuration and cursor, `work` is linear in
amplitude: scaling every input sample by a constant scales every output
sample by the same constant. -/
theorem claim_C8 (st : BWFillRepeater) (a : ℂ) (x : List ℂ) :
    (st.work (List.map (fun z => a * z) x)).2.1
      = List.map (fun z => a * z) (st.work x).2.1 := by
  apply List.ext_getElem
  · rw [work_output_length, List.length_map, List.length_map, work_output_length]
  · intro k h1 h2
    have hk : k < x.length := by
      rw [work_output_length, List.length_map] at h1
      exact h1
    have hr : k < (st.work x).2.1.length := by
      rw [work_output_length]
      exact hk
    rw [← List.getD_eq_getElem _ 0 h1, ← List.getD_eq_getElem _ 0 h2]
    rw [work_getD st _ k (by simpa using hk)]
    rw [List.getD_eq_getElem _ 0 (show k < (List.map (fun z => a * z) (st.work x).2.1).length by
          simpa using hr),
        List.getElem_map, ← List.getD_eq_getElem _ 0 hr, work_getD st x k hk]
    rw [Finset.mul_sum]
    refine Finset.sum_congr rfl (fun i hi => ?_)
    have hxk : (List.map (fun z => a * z) x).getD k 0 = a * x.getD k 0 := by
      rw [List.getD_eq_getElem _ 0 (show k < (List.map (fun z => a * z) x).length by
            simpa using hk),
          List.getElem_map, ← List.getD_eq_getElem _ 0 hk]
    rw [hxk, List.length_map]
    ring

end WBFMFill
